import Mathlib

/-!
Verification development for the MCDR plugin template's configuration
serializer (`my_plugin/utils/serializer.py`), file helper
(`my_plugin/utils/file_util.py`) and translation helper
(`my_plugin/utils/translation.py`).

The Python code is shallowly embedded: YAML documents become the inductive
`Value`, schema type annotations become `Ty`, and the reconciler
`BlossomSerializable._fix_data`, the load/save orchestration of
`ConfigurationBase` and the translation lookup `ntr` become executable Lean
functions.  Exceptions are modelled with `Except Unit`.
-/

namespace MyPlugin

/-- A YAML document value, as produced by `ruamel.yaml`'s safe loader:
`None`, booleans, integers, strings, sequences and mappings. -/
inductive Value where
  | null
  | bool (b : Bool)
  | int (n : Int)
  | str (s : String)
  | list (xs : List Value)
  | map (entries : List (String × Value))

/-- A schema type annotation as used on a `BlossomSerializable` subclass:
a primitive, a typed sequence (`typing.List[...]`, whose `get_origin` is not
`None`), or a nested `BlossomSerializable` subclass, carried as its own
field-annotation list and default-serialization. -/
inductive Ty where
  | int
  | str
  | bool
  | list (elem : Ty)
  | nested (fields : List (String × Ty)) (defaults : List (String × Value))

/-- Python `dict` lookup over an association list (first binding wins,
mirroring `key in d` / `d[key]`). -/
def lookupStr {α : Type} : List (String × α) → String → Option α
  | [], _ => none
  | (k, v) :: rest, key => if k = key then some v else lookupStr rest key

/-- `'.'.join(nodes)`. -/
def dotJoin (nodes : List String) : String :=
  String.intercalate "." nodes

/-- Whether `target_type` is a nested `BlossomSerializable` schema, i.e. the
Python test `get_origin(target_type) is None and
issubclass(target_type, BlossomSerializable)`. -/
def Ty.isNestedSchema : Ty → Bool
  | .nested _ _ => true
  | _ => false

/-- Modelled from the spec: the host's `deserialize(value, target_type,
error_at_redundancy=True)` (an external `mcdreforged` collaborator, not part
of this repository) performs "structural type coercion of `value` into
`target_type`, rejecting unknown/extra keys inside structured values as an
error".  `conforms` is that structural check: primitives must already have
the declared type, sequences are checked elementwise, and mappings destined
for a nested schema may not contain keys outside the schema's fields. -/
def conforms : Value → Ty → Bool
  | .int _, .int => true
  | .str _, .str => true
  | .bool _, .bool => true
  | .list [], .list _ => true
  | .list (x :: xs), .list t => conforms x t && conforms (.list xs) t
  | .map [], .nested _ _ => true
  | .map ((k, v) :: m), .nested fs dfs =>
    (match lookupStr fs k with
     | some t => conforms v t
     | none => false) && conforms (.map m) (.nested fs dfs)
  | _, _ => false

/-- Modelled from the spec: the external `deserialize` call returns the
coerced value on success and raises `ValueError`/`TypeError` on failure; for
the primitive and container annotations reachable from `_fix_data` the
coerced data equals the input data, so success returns the value unchanged. -/
def deserializeV (v : Value) (t : Ty) : Except Unit Value :=
  if conforms v t then .ok v else .error ()

/-- Modelled from the spec: Python `str(value)` for scalar values; the
rendering of containers is abstracted (no claim inspects it). -/
def pyStr : Value → String
  | .null => "None"
  | .bool true => "True"
  | .bool false => "False"
  | .int n => toString n
  | .str s => s
  | .list _ => "<list>"
  | .map _ => "<map>"

/-- Python truthiness `bool(value)`. -/
def pyTruthy : Value → Bool
  | .null => false
  | .bool b => b
  | .int n => n ≠ 0
  | .str s => s ≠ ""
  | .list xs => !xs.isEmpty
  | .map m => !m.isEmpty

/-- Modelled from the spec: the digit block of Python `int(string)` — a
non-empty run of decimal digits. -/
def pyParseDigits (cs : List Char) : Option Nat :=
  if cs.isEmpty then none
  else if cs.all (fun c => c.isDigit) then
    some (cs.foldl (fun a c => a * 10 + (c.toNat - 48)) 0)
  else none

/-- Modelled from the spec: Python `int(string)` — an optional minus sign
followed by decimal digits; anything else raises `ValueError`. -/
def pyParseInt (s : String) : Option Int :=
  match s.data with
  | '-' :: cs => (pyParseDigits cs).map fun n => -(n : Int)
  | cs => (pyParseDigits cs).map fun n => (n : Int)

/-- Modelled from the spec: the last-resort constructor call
`target_type(value)` in `_fix_data`.  `int(...)` accepts ints, bools and
numeric strings; `str(...)` and `bool(...)` always succeed; calling a
`typing.List[...]` alias raises `TypeError`; a nested `BlossomSerializable`
annotation never reaches this call (it is intercepted earlier). -/
def construct : Ty → Value → Except Unit Value
  | .int, .int n => .ok (.int n)
  | .int, .bool b => .ok (.int (if b then 1 else 0))
  | .int, .str s =>
    match pyParseInt s with
    | some n => .ok (.int n)
    | none => .error ()
  | .int, _ => .error ()
  | .str, v => .ok (.str (pyStr v))
  | .bool, v => .ok (.bool (pyTruthy v))
  | .list _, _ => .error ()
  | .nested _ _, _ => .error ()

/-- The primitive/container branch of `_fix_data` for a single present
value: try `deserialize`; on failure record the node (the caller appends
`nodeName`), then — if a default exists — fall back to `target_type(value)`
and finally to the literal default; with no default the field is dropped.
The Python branch `isinstance(target_type, Serializable)` tests whether the
*class object* is an instance of `Serializable`, which is never true, so it
is omitted as dead code.  Returns the field value to emit (`none` = drop)
and whether the node path is appended to `needs_save`. -/
def fixPrim (t : Ty) (dfs : List (String × Value)) (key : String)
    (v : Value) : Option Value × Bool :=
  match deserializeV v t with
  | .ok v' => (some v', false)
  | .error _ =>
    match lookupStr dfs key with
    | none => (none, true)
    | some d =>
      match construct t v with
      | .ok w => (some w, true)
      | .error _ => (some d, true)

/-- The `fixed_dict` entries and `needs_save` additions produced by the
primitive/container branch of the loop: the emitted binding (if any) from
`fixPrim`, with the node name recorded on repair. -/
def fixPrimField (t : Ty) (dfs : List (String × Value))
    (key nodeName : String) (v : Value) :
    Except Unit (List (String × Value) × List String) :=
  match fixPrim t dfs key v with
  | (some w, false) => .ok ([(key, w)], [])
  | (some w, true) => .ok ([(key, w)], [nodeName])
  | (none, _) => .ok ([], [nodeName])

mutual

/-- One loop iteration of `BlossomSerializable._fix_data` for the field
`key` with annotation `t`, over the mapping `m` (= `data`): a missing key
is defaulted (and recorded) when a default exists, a nested schema recurses
with the extended node path, and any other annotation goes through
`fixPrim`.  Returns the entries emitted into `fixed_dict` for this field
(empty or a single binding) and the node names appended to `needs_save`. -/
def fixField (dfs : List (String × Value)) (key : String) (t : Ty)
    (m : List (String × Value)) (fathers : List String) :
    Except Unit (List (String × Value) × List String) :=
  let nodeName := dotJoin (fathers ++ [key])
  match lookupStr m key with
  | none =>
    match lookupStr dfs key with
    | some d => .ok ([(key, d)], [nodeName])
    | none => .ok ([], [])
  | some v =>
    match t with
    | .nested fs' dfs' =>
      match fixData fs' dfs' v (fathers ++ [key]) with
      | .error e => .error e
      | .ok (sub, subLog) => .ok ([(key, .map sub)], subLog)
    | t' => fixPrimField t' dfs key nodeName v

/-- `BlossomSerializable._fix_data(data, father_nodes)` for the schema given
by `fields` (= `cls.get_field_annotations()`, in declaration order) and
`dfs` (= `cls.get_default().serialize()`).  Walks the fields in order and
assembles the per-field results.  The body touches `data.keys()` only
inside the loop, so a non-mapping `data` raises (`.error`) exactly when at
least one field is declared, as in Python (`AttributeError`); a nested
recursion's exception propagates and aborts the walk. -/
def fixData : List (String × Ty) → List (String × Value) → Value →
    List String → Except Unit (List (String × Value) × List String)
  | [], _, _, _ => .ok ([], [])
  | (key, t) :: rest, dfs, data, fathers =>
    match data with
    | .map m =>
      match fixField dfs key t m fathers with
      | .error e => .error e
      | .ok (entry, hl) =>
        match fixData rest dfs data fathers with
        | .error e => .error e
        | .ok (doc, log) => .ok (entry ++ doc, hl ++ log)
    | _ => .error ()

end

/-- Outcome of `ConfigurationBase.load`: the serialized form of the
returned `TypedConfig`, whether the on-disk file was deleted, whether a
save was marked as needed, and how many warnings were emitted. -/
structure LoadResult where
  config : Value
  deletedFile : Bool
  needsSave : Bool
  warnCount : Nat

/-- Modelled from the spec: the outer `cls.deserialize(result_config)` call
(external `mcdreforged` collaborator) — deserializing the reconciled
mapping into the typed instance, which succeeds exactly when the mapping
structurally conforms to the schema. -/
def clsDeserialize (fields : List (String × Ty)) (dfs : List (String × Value))
    (v : Value) : Except Unit Value :=
  if conforms v (.nested fields dfs) then .ok v else .error ()

/-- `ConfigurationBase.load` up to its pure data flow.  `parsed` stands for
the guarded block `lf_read` + `safe_yaml.load`: `.error` when the file was
unreadable or not parsable as YAML, `.ok v` with the parsed document
otherwise.  On a read failure the corrupt file is deleted and the
default-serialization becomes the working document; otherwise `_fix_data`
runs *outside* any exception guard, so its exceptions propagate out of
`load`.  The final `cls.deserialize` is guarded and falls back to the pure
default instance. -/
def loadModel (fields : List (String × Ty)) (dfs : List (String × Value))
    (parsed : Except Unit Value) : Except Unit LoadResult :=
  let afterFix : Except Unit (Value × Bool × Bool × Nat) :=
    match parsed with
    | .error _ => .ok (.map dfs, true, true, 1)
    | .ok v =>
      match fixData fields dfs v [] with
      | .error e => .error e
      | .ok (doc, log) =>
        if log.isEmpty then .ok (.map doc, false, false, 0)
        else .ok (.map doc, false, true, 2)
  match afterFix with
  | .error e => .error e
  | .ok (doc, deleted, needsSave, warns) =>
    match clsDeserialize fields dfs doc with
    | .ok inst => .ok ⟨inst, deleted, needsSave, warns⟩
    | .error _ => .ok ⟨.map dfs, deleted, true, warns + 1⟩

/-! ### Well-formedness of a schema's declared defaults

A `BlossomSerializable` class definition may declare a default whose value
does not match the field's annotation (`a: int = "x"` is accepted by
Python), so stability of reconciled documents can only hold for schemas
whose defaults are themselves schema-conformant. -/

/-- A declared default is *stable* for its annotation when re-reconciling
it records nothing: for a nested schema this means `_fix_data` on the
default serialization succeeds with an empty repair log, for any other
annotation it means the value structurally conforms. -/
def stableDefault : Ty → Value → Bool
  | .nested fs dfs, d =>
    match fixData fs dfs d [] with
    | .ok (_, log) => log.isEmpty
    | .error _ => false
  | .int, d => conforms d .int
  | .str, d => conforms d .str
  | .bool, d => conforms d .bool
  | .list t, d => conforms d (.list t)

mutual

/-- Well-formedness of one field annotation: nested schemas have distinct
field names and are recursively well formed. -/
def wfFieldTy : Ty → Bool
  | .nested fs dfs => decide ((fs.map Prod.fst).Nodup) && wfSchemaAux fs dfs
  | _ => true

/-- Well-formedness of a schema: every field annotation is well formed and
every declared default is stable for its annotation. -/
def wfSchemaAux : List (String × Ty) → List (String × Value) → Bool
  | [], _ => true
  | (k, t) :: rest, dfs =>
    (wfFieldTy t &&
      match lookupStr dfs k with
      | some d => stableDefault t d
      | none => true) && wfSchemaAux rest dfs

end

/-! ### File system model for `safe_write` and `ConfigurationBase.save` -/

/-- The relevant slice of the file system: an association of paths to
complete file contents. -/
abbrev FS : Type := List (String × String)

/-- The primitive file operations `save` performs, in the order it performs
them: a (non-atomic) text write, `os.replace` and `file_util.delete`. -/
inductive FsOp where
  | write (p : String) (c : String)
  | rename (src dst : String)
  | delete (p : String)

/-- Read a path's content. -/
def fsGet : FS → String → Option String
  | [], _ => none
  | (q, c) :: rest, p => if q = p then some c else fsGet rest p

/-- Remove a path (`file_util.delete`; removing a missing path is a
no-op, matching the `isfile`/`isdir` guards). -/
def fsDel : FS → String → FS
  | [], _ => []
  | (q, c) :: rest, p => if q = p then fsDel rest p else (q, c) :: fsDel rest p

/-- Write a complete content at a path. -/
def fsSet (fs : FS) (p : String) (c : String) : FS :=
  fsDel fs p ++ [(p, c)]

/-- Apply one primitive operation.  `os.replace` moves the complete content
of `src` over `dst` (`src` ceases to exist); renaming a missing source is
unreachable in the traces `save` emits. -/
def applyOp (fs : FS) : FsOp → FS
  | .write p c => fsSet fs p c
  | .rename src dst =>
    match fsGet fs src with
    | some c => fsSet (fsDel fs src) dst c
    | none => fs
  | .delete p => fsDel fs p

/-- Apply a sequence of operations. -/
def applyOps (fs : FS) : List FsOp → FS
  | [] => fs
  | op :: rest => applyOps (applyOp fs op) rest

/-- `file_util.safe_write(target)`: delete a stale `<target>.tmp`, write the
content to `<target>.tmp`, then `os.replace` it onto `target`. -/
def safeWriteOps (target content : String) : List FsOp :=
  [.delete (target ++ ".tmp"), .write (target ++ ".tmp") content,
   .rename (target ++ ".tmp") target]

/-- The warnings `ConfigurationBase.save` can log, by their translation
keys. -/
inductive SaveWarn where
  | validationRetry
  | contactMaintainer
  | savedWithoutFormat

instance : DecidableEq SaveWarn := fun a b => by
  cases a <;> cases b <;> first
    | exact isTrue rfl
    | exact isFalse (fun h => SaveWarn.noConfusion h)

/-- The environment of one `save` call: the real and temporary paths, the
formatted-merge pipeline (`rt_yaml` load of the merge base — existing file
content or bundled template — overlaid with `self.serialize()` and dumped),
the plain `safe_yaml` dump of `self.serialize()`, and the validation
round-trip `self.deserialize(safe_yaml.load(...))` as a predicate on the
written text. -/
structure SaveCtx where
  realPath : String
  tempPath : String
  dumpMerged : Option String → String
  safeContent : String
  validate : String → Bool

/-- The result of a `save` call: the primitive file operations in emission
order, the warnings logged, and how many times the safe-dump branch ran. -/
structure SaveOut where
  ops : List FsOp
  warns : List SaveWarn
  safeDumpRuns : Nat

/-- `_save(safe_dump=True)`: drop the temp file, then dump the plain safe
serialization directly onto the real path through `safe_write`, logging one
warning.  It performs no validation and no further recursion.  (The
`os.path.exists` guard before the delete is dropped: deleting a missing
path is already a no-op.) -/
def saveSafePart (ctx : SaveCtx) : SaveOut :=
  ⟨.delete ctx.tempPath :: safeWriteOps ctx.realPath ctx.safeContent,
    [.savedWithoutFormat], 1⟩

/-- `_save(safe_dump=False)`, the body of `ConfigurationBase.save`: drop a
stale temp file, merge the serialized instance over the formatted base
(existing real file if present, else the bundled template), `safe_write`
the merged dump to the temp path, then re-read and validate the temp file.
On success the temp file is `os.replace`d onto the real path; on failure
two warnings are logged and `_save(safe_dump=True)` runs.  The
`os.path.isdir`-guarded directory removal at the top of `save()` is outside
this model, whose file system holds only regular files; the
`temp_<basename>` path built by `save()` is abstracted as `tempPath`. -/
def saveMain (ctx : SaveCtx) (fs : FS) : SaveOut :=
  let ops₁ : List FsOp := [.delete ctx.tempPath]
  let fs₁ := applyOps fs ops₁
  let merged := ctx.dumpMerged (fsGet fs₁ ctx.realPath)
  let ops₂ := safeWriteOps ctx.tempPath merged
  let fs₂ := applyOps fs₁ ops₂
  let written := (fsGet fs₂ ctx.tempPath).getD ""
  if ctx.validate written then
    ⟨ops₁ ++ ops₂ ++ [.rename ctx.tempPath ctx.realPath], [], 0⟩
  else
    let fb := saveSafePart ctx
    ⟨ops₁ ++ ops₂ ++ fb.ops,
      .validationRetry :: .contactMaintainer :: fb.warns, fb.safeDumpRuns⟩

/-! ### Translation lookup model (`my_plugin/utils/translation.py`) -/

/-- The host services `ntr` relies on: `psi.tr(key, language,
allow_failure=False)`, which raises `KeyError`/`ValueError` when the key is
unknown (modelled as `.error`), and `psi.get_mcdr_language()`. -/
structure TrHost where
  tr : String → Option String → Except Unit String
  mcdrLanguage : String

/-- `ntr(key, language, allow_failure, _default_fallback,
log_error_message)`: try the host lookup with the requested language; on a
miss retry with `en_us` unless the host language already is `en_us`; on a
second miss either echo the key back (or the caller-supplied fallback),
logging only when enabled, or re-raise when failure is not allowed.
Returns the outcome and whether an error was logged. -/
def ntrModel (host : TrHost) (key : String) (language : Option String)
    (allowFailure : Bool) (defaultFb : Option String) (logErr : Bool) :
    Except Unit String × Bool :=
  match host.tr key language with
  | .ok s => (.ok s, false)
  | .error _ =>
    let second : Except Unit String :=
      if host.mcdrLanguage = "en_us" then .error ()
      else host.tr key (some "en_us")
    match second with
    | .ok s => (.ok s, false)
    | .error _ =>
      if allowFailure then (.ok (defaultFb.getD key), logErr)
      else (.error (), false)

/-! ### Translation-key prefixing (`rtr` and `ktr`) -/

/-- The *actual key* computation of `ktr`: prepend `pre` unless
`translation_key.startswith(prefix)`.  Keys are embedded as character
lists; Python `startswith` is `List.isPrefixOf`. -/
def ktrActualKey (pre key : List Char) : List Char :=
  if pre.isPrefixOf key then key else pre ++ key

/-- The *actual key* computation of `rtr`: prepend the plugin's translation
key head unless `with_prefix` is unset or the key already starts with
it. -/
def rtrActualKey (pre : List Char) (withPre : Bool) (key : List Char) :
    List Char :=
  if withPre && !(pre.isPrefixOf key) then pre ++ key else key

/-! ### Helper lemmas about lookups and `_fix_data` -/

theorem lookupStr_mem {α : Type} {l : List (String × α)} {k : String} {v : α}
    (h : lookupStr l k = some v) : (k, v) ∈ l := by
  induction l with
  | nil => simp [lookupStr] at h
  | cons p rest ih =>
    obtain ⟨k₀, v₀⟩ := p
    by_cases hk : k₀ = k
    · subst hk
      simp [lookupStr] at h
      simp [h]
    · simp only [lookupStr, if_neg hk] at h
      exact List.mem_cons_of_mem _ (ih h)

theorem lookupStr_none_of_keys {α : Type} {l : List (String × α)} {k : String}
    (h : k ∉ l.map Prod.fst) : lookupStr l k = none := by
  induction l with
  | nil => rfl
  | cons p rest ih =>
    obtain ⟨k₀, v₀⟩ := p
    simp only [List.map_cons, List.mem_cons] at h
    push_neg at h
    simp only [lookupStr]
    rw [if_neg (Ne.symm h.1)]
    exact ih h.2

theorem lookupStr_cons_ne {α : Type} {l : List (String × α)} {k₀ k : String}
    {w : α} (h : k₀ ≠ k) : lookupStr ((k₀, w) :: l) k = lookupStr l k := by
  simp [lookupStr, h]

/-- Every entry `fixPrimField` emits is a binding for its own key. -/
theorem fixPrimField_entry_key {t : Ty} {dfs : List (String × Value)}
    {key nodeName : String} {v : Value} {entry : List (String × Value)}
    {hl : List String}
    (h : fixPrimField t dfs key nodeName v = .ok (entry, hl)) :
    ∀ p ∈ entry, p.1 = key := by
  rw [fixPrimField] at h
  split at h <;>
    simp only [Except.ok.injEq, Prod.mk.injEq] at h <;>
    obtain ⟨h1, -⟩ := h <;> subst h1 <;> simp

/-- Every entry `fixField` emits is a binding for its own key. -/
theorem fixField_entry_key {dfs : List (String × Value)} {key : String}
    {t : Ty} {m : List (String × Value)} {fathers : List String}
    {entry : List (String × Value)} {hl : List String}
    (h : fixField dfs key t m fathers = .ok (entry, hl)) :
    ∀ p ∈ entry, p.1 = key := by
  rw [fixField] at h
  rcases hm : lookupStr m key with _ | v <;> simp only [hm] at h
  · rcases hd : lookupStr dfs key with _ | d <;> simp only [hd] at h <;>
      simp only [Except.ok.injEq, Prod.mk.injEq] at h <;>
      obtain ⟨h1, -⟩ := h <;> subst h1 <;> simp
  · match t with
    | .nested fs' dfs' =>
      simp only at h
      rcases hs : fixData fs' dfs' v (fathers ++ [key]) with e | ⟨sub, subLog⟩
      · simp [hs] at h
      · simp only [hs, Except.ok.injEq, Prod.mk.injEq] at h
        obtain ⟨h1, -⟩ := h
        subst h1
        simp
    | .int | .str | .bool | .list _ =>
      simp only at h
      exact fixPrimField_entry_key h

/-- A binding for a key that is not a declared field is invisible to
`_fix_data` (unknown keys are silently ignored). -/
theorem fixField_cons_ne {dfs : List (String × Value)} {key : String} {t : Ty}
    {m : List (String × Value)} {fathers : List String} {k : String}
    {w : Value} (hk : k ≠ key) :
    fixField dfs key t ((k, w) :: m) fathers = fixField dfs key t m fathers := by
  simp only [fixField, lookupStr_cons_ne hk]

/-- `_fix_data` ignores bindings for undeclared keys wholesale. -/
theorem fixData_consIgnored {fields : List (String × Ty)}
    {dfs : List (String × Value)} {m : List (String × Value)}
    {fathers : List String} {k : String} {w : Value}
    (hk : k ∉ fields.map Prod.fst) :
    fixData fields dfs (Value.map ((k, w) :: m)) fathers
      = fixData fields dfs (Value.map m) fathers := by
  induction fields with
  | nil => simp [fixData]
  | cons f rest ih =>
    obtain ⟨key, t⟩ := f
    simp only [List.map_cons, List.mem_cons] at hk
    push_neg at hk
    simp only [fixData, fixField_cons_ne hk.1, ih hk.2]

/-- The node names recorded by `fixPrimField` depend on the node path only
through the label text: changing the path changes neither the emitted
entry nor how many names are recorded. -/
theorem fixPrimField_node {t : Ty} {dfs : List (String × Value)}
    {key n₁ : String} {v : Value} {entry : List (String × Value)}
    {hl : List String}
    (h : fixPrimField t dfs key n₁ v = .ok (entry, hl)) (n₂ : String) :
    ∃ hl₂, fixPrimField t dfs key n₂ v = .ok (entry, hl₂) ∧
      hl₂.length = hl.length := by
  simp only [fixPrimField] at h ⊢
  rcases hfp : fixPrim t dfs key v with ⟨_ | w', rec⟩
  · simp only [hfp, Except.ok.injEq, Prod.mk.injEq] at h
    obtain ⟨h1, h2⟩ := h
    subst h1
    subst h2
    exact ⟨[n₂], by simp [hfp], rfl⟩
  · cases rec <;>
      simp only [hfp, Except.ok.injEq, Prod.mk.injEq] at h <;>
      obtain ⟨h1, h2⟩ := h <;> subst h1 <;> subst h2
    · exact ⟨[], by simp [hfp], rfl⟩
    · exact ⟨[n₂], by simp [hfp], rfl⟩

mutual

/-- The result of `fixField` is independent of the father-node path, except
for the label text of recorded nodes (their number is preserved). -/
theorem fixField_fathers {dfs : List (String × Value)} {key : String}
    {t : Ty} {m : List (String × Value)} {f₁ : List String}
    {entry : List (String × Value)} {hl : List String}
    (h : fixField dfs key t m f₁ = .ok (entry, hl)) (f₂ : List String) :
    ∃ hl₂, fixField dfs key t m f₂ = .ok (entry, hl₂) ∧
      hl₂.length = hl.length := by
  rw [fixField] at h
  simp only [fixField]
  rcases hm : lookupStr m key with _ | v <;> simp only [hm] at h ⊢
  · rcases hd : lookupStr dfs key with _ | d <;>
      simp only [hd, Except.ok.injEq, Prod.mk.injEq] at h ⊢ <;>
      obtain ⟨h1, h2⟩ := h <;> subst h1 <;> subst h2
    · exact ⟨[], by simp, rfl⟩
    · exact ⟨[dotJoin (f₂ ++ [key])], by simp, rfl⟩
  · match t with
    | .nested fs' dfs' =>
      simp only at h ⊢
      rcases hs : fixData fs' dfs' v (f₁ ++ [key]) with e | ⟨sub, subLog⟩
      · simp [hs] at h
      · simp only [hs, Except.ok.injEq, Prod.mk.injEq] at h
        obtain ⟨h1, h2⟩ := h
        subst h1
        subst h2
        obtain ⟨subLog₂, hs₂, hslen⟩ := fixData_fathers hs (f₂ ++ [key])
        exact ⟨subLog₂, by rw [hs₂], hslen⟩
    | .int | .str | .bool | .list _ =>
      simp only at h ⊢
      exact fixPrimField_node h _

/-- The result of `_fix_data` is independent of the father-node path,
except for the label text of recorded nodes (their number is
preserved). -/
theorem fixData_fathers {fields : List (String × Ty)}
    {dfs : List (String × Value)} {data : Value} {f₁ : List String}
    {doc : List (String × Value)} {log : List String}
    (h : fixData fields dfs data f₁ = .ok (doc, log)) (f₂ : List String) :
    ∃ log₂, fixData fields dfs data f₂ = .ok (doc, log₂) ∧
      log₂.length = log.length := by
  match fields with
  | [] =>
    simp only [fixData, Except.ok.injEq, Prod.mk.injEq] at h
    obtain ⟨h1, h2⟩ := h
    subst h1
    subst h2
    exact ⟨[], by simp [fixData], rfl⟩
  | (key, t) :: rest =>
    cases data with
    | map m =>
      simp only [fixData] at h ⊢
      rcases hf : fixField dfs key t m f₁ with e | ⟨entry, hl⟩
      · simp [hf] at h
      · simp only [hf] at h
        rcases hr : fixData rest dfs (Value.map m) f₁ with e | ⟨doc', log'⟩
        · simp [hr] at h
        · simp only [hr, Except.ok.injEq, Prod.mk.injEq] at h
          obtain ⟨h1, h2⟩ := h
          obtain ⟨log₂', hr₂, hlen'⟩ := fixData_fathers hr f₂
          obtain ⟨hl₂, hf₂, hlenh⟩ := fixField_fathers hf f₂
          refine ⟨hl₂ ++ log₂', ?_, ?_⟩
          · rw [hf₂, hr₂, ← h1]
          · rw [← h2]
            simp [hlenh, hlen']
    | null => simp [fixData] at h
    | bool b => simp [fixData] at h
    | int n => simp [fixData] at h
    | str s => simp [fixData] at h
    | list xs => simp [fixData] at h

end

/-- Every key of a reconciled document is a declared field name. -/
theorem fixData_doc_keys {fields : List (String × Ty)}
    {dfs : List (String × Value)} {data : Value} {fathers : List String}
    {doc : List (String × Value)} {log : List String}
    (h : fixData fields dfs data fathers = .ok (doc, log)) :
    ∀ p ∈ doc, p.1 ∈ fields.map Prod.fst := by
  induction fields generalizing doc log with
  | nil =>
    simp [fixData] at h
    simp [h.1]
  | cons f rest ih =>
    obtain ⟨key, t⟩ := f
    cases data with
    | map m =>
      simp only [fixData] at h
      rcases hf : fixField dfs key t m fathers with e | ⟨entry, hl⟩
      · simp [hf] at h
      · simp only [hf] at h
        rcases hr : fixData rest dfs (Value.map m) fathers with e | ⟨doc', log'⟩
        · simp [hr] at h
        · simp only [hr, Except.ok.injEq, Prod.mk.injEq] at h
          obtain ⟨h1, -⟩ := h
          subst h1
          intro p hp
          rcases List.mem_append.1 hp with hp | hp
          · simp [fixField_entry_key hf p hp]
          · exact List.mem_cons_of_mem _ (ih hr p hp)
    | null => simp [fixData] at h
    | bool b => simp [fixData] at h
    | int n => simp [fixData] at h
    | str s => simp [fixData] at h
    | list xs => simp [fixData] at h

theorem lookupStr_append_of_ne {α : Type} {l₁ l₂ : List (String × α)}
    {k : String} (h : ∀ p ∈ l₁, p.1 ≠ k) :
    lookupStr (l₁ ++ l₂) k = lookupStr l₂ k := by
  induction l₁ with
  | nil => rfl
  | cons p rest ih =>
    obtain ⟨k₀, v₀⟩ := p
    rw [List.cons_append, lookupStr_cons_ne (h (k₀, v₀) (by simp))]
    exact ih fun p hp => h p (List.mem_cons_of_mem _ hp)

/-- `fixField` when the key is missing from the document. -/
theorem fixField_of_absent {dfs : List (String × Value)} {key : String}
    {t : Ty} {m : List (String × Value)} {fathers : List String}
    (habs : lookupStr m key = none) :
    fixField dfs key t m fathers =
      match lookupStr dfs key with
      | some d => .ok ([(key, d)], [dotJoin (fathers ++ [key])])
      | none => .ok ([], []) := by
  simp [fixField, habs]

/-- `fixField` on a present value with a nested-schema annotation. -/
theorem fixField_of_nested {dfs : List (String × Value)} {key : String}
    {fs' : List (String × Ty)} {dfs' : List (String × Value)}
    {m : List (String × Value)} {fathers : List String} {v : Value}
    (hv : lookupStr m key = some v) :
    fixField dfs key (.nested fs' dfs') m fathers =
      match fixData fs' dfs' v (fathers ++ [key]) with
      | .error e => .error e
      | .ok (sub, subLog) => .ok ([(key, .map sub)], subLog) := by
  simp [fixField, hv]

/-- `fixField` on a present value with a non-nested annotation. -/
theorem fixField_of_notNested {dfs : List (String × Value)} {key : String}
    {t : Ty} {m : List (String × Value)} {fathers : List String} {v : Value}
    (hnn : t.isNestedSchema = false) (hv : lookupStr m key = some v) :
    fixField dfs key t m fathers =
      fixPrimField t dfs key (dotJoin (fathers ++ [key])) v := by
  cases t with
  | nested fs' dfs' => simp [Ty.isNestedSchema] at hnn
  | int => simp [fixField, hv]
  | str => simp [fixField, hv]
  | bool => simp [fixField, hv]
  | list e => simp [fixField, hv]

/-- Unfolding one field of a successful `_fix_data` run. -/
theorem fixData_cons_ok {key : String} {t : Ty} {rest : List (String × Ty)}
    {dfs : List (String × Value)} {m : List (String × Value)}
    {fathers : List String} {doc : List (String × Value)} {log : List String}
    (h : fixData ((key, t) :: rest) dfs (Value.map m) fathers
      = .ok (doc, log)) :
    ∃ entry hl doc' log', fixField dfs key t m fathers = .ok (entry, hl) ∧
      fixData rest dfs (Value.map m) fathers = .ok (doc', log') ∧
      doc = entry ++ doc' ∧ log = hl ++ log' := by
  simp only [fixData] at h
  rcases hf : fixField dfs key t m fathers with e | ⟨entry, hl⟩
  · simp [hf] at h
  · simp only [hf] at h
    rcases hr : fixData rest dfs (Value.map m) fathers with e | ⟨doc', log'⟩
    · simp [hr] at h
    · simp only [hr, Except.ok.injEq, Prod.mk.injEq] at h
      exact ⟨entry, hl, doc', log', rfl, rfl, h.1.symm, h.2.symm⟩

/-- `fixPrimField` after a failed coercion: the node is recorded, and the
emitted value is the constructor coercion of the *raw* value when that
succeeds, else the literal default, with the field dropped when no default
is declared. -/
theorem fixPrimField_spec_fail {t : Ty} {dfs : List (String × Value)}
    {key nodeName : String} {v : Value}
    (hde : deserializeV v t = .error ()) :
    fixPrimField t dfs key nodeName v =
      .ok ((match lookupStr dfs key with
            | none => []
            | some d => [(key,
                match construct t v with
                | .ok w => w
                | .error _ => d)]),
        [nodeName]) := by
  rcases hd : lookupStr dfs key with _ | d <;>
    rcases hc : construct t v with e | w <;>
    simp [fixPrimField, fixPrim, hde, hd, hc]

/-- `fixPrimField` after a successful coercion emits the coerced value and
records nothing. -/
theorem fixPrimField_spec_ok {t : Ty} {dfs : List (String × Value)}
    {key nodeName : String} {v v' : Value}
    (hde : deserializeV v t = .ok v') :
    fixPrimField t dfs key nodeName v = .ok ([(key, v')], []) := by
  simp [fixPrimField, fixPrim, hde]

/-- A field missing from the document but having a declared default is
emitted with the default and its node path is recorded. -/
theorem fixData_field_absent {fields : List (String × Ty)}
    {dfs : List (String × Value)} {m : List (String × Value)}
    {fathers : List String} {doc : List (String × Value)} {log : List String}
    {k : String} {t : Ty} {d : Value}
    (hnd : (fields.map Prod.fst).Nodup)
    (h : fixData fields dfs (Value.map m) fathers = .ok (doc, log))
    (hmem : (k, t) ∈ fields)
    (habs : lookupStr m k = none)
    (hdef : lookupStr dfs k = some d) :
    lookupStr doc k = some d ∧ dotJoin (fathers ++ [k]) ∈ log := by
  induction fields generalizing doc log with
  | nil => simp at hmem
  | cons f rest ih =>
    obtain ⟨key, t₀⟩ := f
    obtain ⟨entry, hl, doc', log', hf, hr, hdoc, hlog⟩ := fixData_cons_ok h
    subst hdoc
    subst hlog
    simp only [List.map_cons, List.nodup_cons] at hnd
    rcases List.mem_cons.1 hmem with hmem | hmem
    · rw [Prod.mk.injEq] at hmem
      obtain ⟨hk, -⟩ := hmem
      subst hk
      rw [fixField_of_absent habs, hdef] at hf
      simp only [Except.ok.injEq, Prod.mk.injEq] at hf
      obtain ⟨h1, h2⟩ := hf
      subst h1
      subst h2
      constructor
      · simp [lookupStr]
      · simp
    · have hkne : key ≠ k := by
        intro hkk
        subst hkk
        exact hnd.1 (by simpa using List.mem_map_of_mem Prod.fst hmem)
      obtain ⟨hdoc', hlog'⟩ := ih hnd.2 hr hmem
      constructor
      · rw [lookupStr_append_of_ne
          (fun p hp => (fixField_entry_key hf p hp) ▸ hkne), hdoc']
      · exact List.mem_append_right _ hlog'

/-- A present field value that fails coercion has its node path recorded,
and the emitted value is the constructor coercion of the raw value when
that succeeds, else the literal default; without a default the field is
absent from the output. -/
theorem fixData_field_fail {fields : List (String × Ty)}
    {dfs : List (String × Value)} {m : List (String × Value)}
    {fathers : List String} {doc : List (String × Value)} {log : List String}
    {k : String} {t : Ty} {v : Value}
    (hnd : (fields.map Prod.fst).Nodup)
    (h : fixData fields dfs (Value.map m) fathers = .ok (doc, log))
    (hmem : (k, t) ∈ fields)
    (hnn : t.isNestedSchema = false)
    (hv : lookupStr m k = some v)
    (hde : deserializeV v t = .error ()) :
    lookupStr doc k =
      (match lookupStr dfs k with
       | none => none
       | some d => some (match construct t v with
           | .ok w => w
           | .error _ => d)) ∧
    dotJoin (fathers ++ [k]) ∈ log := by
  induction fields generalizing doc log with
  | nil => simp at hmem
  | cons f rest ih =>
    obtain ⟨key, t₀⟩ := f
    obtain ⟨entry, hl, doc', log', hf, hr, hdoc, hlog⟩ := fixData_cons_ok h
    subst hdoc
    subst hlog
    simp only [List.map_cons, List.nodup_cons] at hnd
    rcases List.mem_cons.1 hmem with hmem | hmem
    · rw [Prod.mk.injEq] at hmem
      obtain ⟨hk, ht⟩ := hmem
      subst hk
      subst ht
      rw [fixField_of_notNested hnn hv, fixPrimField_spec_fail hde] at hf
      simp only [Except.ok.injEq, Prod.mk.injEq] at hf
      obtain ⟨h1, h2⟩ := hf
      subst h1
      subst h2
      have hdocnone : lookupStr doc' k = none := by
        refine lookupStr_none_of_keys fun hcon => ?_
        obtain ⟨p, hp, hpk⟩ := List.mem_map.1 hcon
        exact hnd.1 (hpk ▸ fixData_doc_keys hr p hp)
      refine ⟨?_, by simp⟩
      rcases hdfs : lookupStr dfs k with _ | d <;> simp only [hdfs]
      · simpa using hdocnone
      · simp [lookupStr]
    · have hkne : key ≠ k := by
        intro hkk
        subst hkk
        exact hnd.1 (by simpa using List.mem_map_of_mem Prod.fst hmem)
      obtain ⟨hdoc', hlog'⟩ := ih hnd.2 hr hmem
      constructor
      · rw [lookupStr_append_of_ne
          (fun p hp => (fixField_entry_key hf p hp) ▸ hkne), hdoc']
      · exact List.mem_append_right _ hlog'

/-! ### Stability lemmas for re-reconciliation -/

theorem lookupStr_head {α : Type} {l : List (String × α)} {key : String}
    {w : α} : lookupStr ((key, w) :: l) key = some w := by
  simp [lookupStr]

theorem deserializeV_ok_self {v : Value} {t : Ty}
    (hc : conforms v t = true) : deserializeV v t = .ok v := by
  simp [deserializeV, hc]

theorem deserializeV_ok_eq {v : Value} {t : Ty} {v' : Value}
    (h : deserializeV v t = .ok v') : v' = v ∧ conforms v t = true := by
  cases hc : conforms v t <;> simp [deserializeV, hc] at h
  exact ⟨h.symm, rfl⟩

/-- A successful constructor coercion produces a conforming value. -/
theorem construct_conforms {t : Ty} {v w : Value}
    (h : construct t v = .ok w) : conforms w t = true := by
  cases t with
  | int =>
    cases v with
    | int n =>
      simp only [construct, Except.ok.injEq] at h
      subst h
      simp [conforms]
    | bool b =>
      simp only [construct, Except.ok.injEq] at h
      subst h
      simp [conforms]
    | str s =>
      rcases hk : pyParseInt s with _ | n
      · simp [construct, hk] at h
      · simp only [construct, hk, Except.ok.injEq] at h
        subst h
        simp [conforms]
    | null => simp [construct] at h
    | list xs => simp [construct] at h
    | map m => simp [construct] at h
  | str =>
    simp only [construct, Except.ok.injEq] at h
    subst h
    simp [conforms]
  | bool =>
    simp only [construct, Except.ok.injEq] at h
    subst h
    simp [conforms]
  | list e => simp [construct] at h
  | nested fs' dfs' => simp [construct] at h

/-- A stable default for a nested-schema annotation reconciles to some
document with an empty repair log. -/
theorem stableDefault_nested {fs' : List (String × Ty)}
    {dfs' : List (String × Value)} {d : Value}
    (h : stableDefault (.nested fs' dfs') d = true) :
    ∃ s, fixData fs' dfs' d [] = .ok (s, []) := by
  rw [stableDefault] at h
  rcases hfx : fixData fs' dfs' d [] with e | ⟨s, l⟩ <;> simp only [hfx] at h
  · simp at h
  · simp only [List.isEmpty_iff] at h
    subst h
    exact ⟨s, rfl⟩

/-- A stable default for a non-nested annotation conforms to it. -/
theorem stableDefault_prim {t : Ty} {d : Value}
    (hnn : t.isNestedSchema = false) (h : stableDefault t d = true) :
    conforms d t = true := by
  cases t with
  | nested fs' dfs' => simp [Ty.isNestedSchema] at hnn
  | int => rw [stableDefault] at h; exact h
  | str => rw [stableDefault] at h; exact h
  | bool => rw [stableDefault] at h; exact h
  | list e => rw [stableDefault] at h; exact h

theorem wfFieldTy_nested {fs' : List (String × Ty)}
    {dfs' : List (String × Value)}
    (h : wfFieldTy (.nested fs' dfs') = true) :
    (fs'.map Prod.fst).Nodup ∧ wfSchemaAux fs' dfs' = true := by
  rw [wfFieldTy] at h
  simpa [Bool.and_eq_true] using h

theorem wfSchemaAux_cons {key : String} {t : Ty} {rest : List (String × Ty)}
    {dfs : List (String × Value)}
    (h : wfSchemaAux ((key, t) :: rest) dfs = true) :
    wfFieldTy t = true ∧
    (∀ d, lookupStr dfs key = some d → stableDefault t d = true) ∧
    wfSchemaAux rest dfs = true := by
  rw [wfSchemaAux] at h
  simp only [Bool.and_eq_true] at h
  refine ⟨h.1.1, ?_, h.2⟩
  intro d hd
  have h2 := h.1.2
  rw [hd] at h2
  exact h2

/-- Bindings whose keys are all undeclared in `rest` do not change
reconciliation against `rest`. -/
theorem fixData_ignoreEntries {rest : List (String × Ty)}
    {dfs : List (String × Value)} {doc' : List (String × Value)}
    {fathers₂ : List String} {key : String}
    (hnk : key ∉ rest.map Prod.fst) :
    ∀ entry : List (String × Value), (∀ p ∈ entry, p.1 = key) →
    fixData rest dfs (Value.map (entry ++ doc')) fathers₂
      = fixData rest dfs (Value.map doc') fathers₂ := by
  intro entry he
  induction entry with
  | nil => simp
  | cons p tail ih =>
    obtain ⟨k₀, w⟩ := p
    have hk : k₀ = key := he (k₀, w) (by simp)
    subst hk
    rw [List.cons_append, fixData_consIgnored hnk]
    exact ih fun p hp => he p (List.mem_cons_of_mem _ hp)

/-- Re-running the primitive/container branch on its own output records
nothing, for a schema whose defaults are stable. -/
theorem fixPrimField_idem {t : Ty} {dfs : List (String × Value)}
    {key n₁ : String} {v : Value} {entry : List (String × Value)}
    {hl : List String}
    (hst : ∀ d, lookupStr dfs key = some d → stableDefault t d = true)
    (hnn : t.isNestedSchema = false)
    (hf : fixPrimField t dfs key n₁ v = .ok (entry, hl))
    (doc' : List (String × Value)) (hdocnone : lookupStr doc' key = none)
    (fathers₂ : List String) :
    ∃ entry₂, fixField dfs key t (entry ++ doc') fathers₂
      = .ok (entry₂, []) := by
  rcases hde : deserializeV v t with e | v'
  · rw [fixPrimField, fixPrim, hde] at hf
    rcases hd : lookupStr dfs key with _ | d <;> simp only [hd] at hf
    · simp only [Except.ok.injEq, Prod.mk.injEq] at hf
      obtain ⟨h1, -⟩ := hf
      subst h1
      refine ⟨[], ?_⟩
      rw [List.nil_append, fixField_of_absent hdocnone, hd]
    · rcases hc : construct t v with e' | w <;> simp only [hc] at hf <;>
        simp only [Except.ok.injEq, Prod.mk.injEq] at hf <;>
        obtain ⟨h1, -⟩ := hf <;> subst h1
      · have hcd : conforms d t = true := stableDefault_prim hnn (hst d hd)
        refine ⟨[(key, d)], ?_⟩
        rw [List.singleton_append, fixField_of_notNested hnn lookupStr_head,
          fixPrimField_spec_ok (deserializeV_ok_self hcd)]
      · have hcw : conforms w t = true := construct_conforms hc
        refine ⟨[(key, w)], ?_⟩
        rw [List.singleton_append, fixField_of_notNested hnn lookupStr_head,
          fixPrimField_spec_ok (deserializeV_ok_self hcw)]
  · obtain ⟨hvv, hcv⟩ := deserializeV_ok_eq hde
    subst hvv
    rw [fixPrimField_spec_ok hde] at hf
    simp only [Except.ok.injEq, Prod.mk.injEq] at hf
    obtain ⟨h1, -⟩ := hf
    subst h1
    refine ⟨[(key, v')], ?_⟩
    rw [List.singleton_append, fixField_of_notNested hnn lookupStr_head,
      fixPrimField_spec_ok (deserializeV_ok_self hcv)]

/-- Re-reconciling the output of a successful `_fix_data` run against a
schema with distinct field names and stable defaults succeeds and records
nothing. -/
theorem fixData_idem {fields : List (String × Ty)}
    {dfs : List (String × Value)} {data : Value} {fathers : List String}
    {doc : List (String × Value)} {log : List String}
    (hnd : (fields.map Prod.fst).Nodup)
    (hwf : wfSchemaAux fields dfs = true)
    (h : fixData fields dfs data fathers = .ok (doc, log))
    (fathers₂ : List String) :
    ∃ doc₂, fixData fields dfs (Value.map doc) fathers₂ = .ok (doc₂, []) := by
  match fields with
  | [] =>
    simp only [fixData, Except.ok.injEq, Prod.mk.injEq] at h
    obtain ⟨h1, -⟩ := h
    subst h1
    exact ⟨[], by simp [fixData]⟩
  | (key, t) :: rest =>
    cases data with
    | map m =>
      obtain ⟨entry, hl, doc', log', hf, hr, hdoc, hlog⟩ := fixData_cons_ok h
      subst hdoc
      simp only [List.map_cons, List.nodup_cons] at hnd
      obtain ⟨hwt, hwd, hwrest⟩ := wfSchemaAux_cons hwf
      obtain ⟨doc₂', hrest₂⟩ := fixData_idem hnd.2 hwrest hr fathers₂
      have hrest₂' : fixData rest dfs (Value.map (entry ++ doc')) fathers₂
          = .ok (doc₂', []) := by
        rw [fixData_ignoreEntries hnd.1 entry (fixField_entry_key hf)]
        exact hrest₂
      have hdocnone : lookupStr doc' key = none := by
        refine lookupStr_none_of_keys fun hcon => ?_
        obtain ⟨p, hp, hpk⟩ := List.mem_map.1 hcon
        exact hnd.1 (hpk ▸ fixData_doc_keys hr p hp)
      have hhead : ∃ entry₂, fixField dfs key t (entry ++ doc') fathers₂
          = .ok (entry₂, []) := by
        rw [fixField] at hf
        rcases hm : lookupStr m key with _ | v <;> simp only [hm] at hf
        · rcases hd : lookupStr dfs key with _ | d <;> simp only [hd] at hf
          · simp only [Except.ok.injEq, Prod.mk.injEq] at hf
            obtain ⟨h1, -⟩ := hf
            subst h1
            refine ⟨[], ?_⟩
            rw [List.nil_append, fixField_of_absent hdocnone, hd]
          · simp only [Except.ok.injEq, Prod.mk.injEq] at hf
            obtain ⟨h1, -⟩ := hf
            subst h1
            cases t with
            | nested fs' dfs' =>
              obtain ⟨s, hs⟩ := stableDefault_nested (hwd d hd)
              obtain ⟨l₂, hs₂, hlen⟩ := fixData_fathers hs (fathers₂ ++ [key])
              have hl₂ : l₂ = [] := List.length_eq_zero.mp (by simp [hlen])
              subst hl₂
              refine ⟨[(key, Value.map s)], ?_⟩
              rw [List.singleton_append, fixField_of_nested lookupStr_head,
                hs₂]
            | int | str | bool | list _ =>
              have hcd := stableDefault_prim (by simp [Ty.isNestedSchema])
                (hwd d hd)
              refine ⟨[(key, d)], ?_⟩
              rw [List.singleton_append,
                fixField_of_notNested (by simp [Ty.isNestedSchema])
                  lookupStr_head,
                fixPrimField_spec_ok (deserializeV_ok_self hcd)]
        · cases t with
          | nested fs' dfs' =>
            simp only at hf
            rcases hs : fixData fs' dfs' v (fathers ++ [key])
              with e | ⟨sub, subLog⟩
            · simp [hs] at hf
            · simp only [hs, Except.ok.injEq, Prod.mk.injEq] at hf
              obtain ⟨h1, -⟩ := hf
              subst h1
              obtain ⟨hndI, hwfI⟩ := wfFieldTy_nested hwt
              obtain ⟨sub₂, hsub₂⟩ := fixData_idem hndI hwfI hs
                (fathers₂ ++ [key])
              refine ⟨[(key, Value.map sub₂)], ?_⟩
              rw [List.singleton_append, fixField_of_nested lookupStr_head,
                hsub₂]
          | int | str | bool | list _ =>
            simp only at hf
            exact fixPrimField_idem hwd (by simp [Ty.isNestedSchema]) hf
              doc' hdocnone fathers₂
      obtain ⟨entry₂, hhead₂⟩ := hhead
      refine ⟨entry₂ ++ doc₂', ?_⟩
      simp only [fixData, hhead₂, hrest₂', List.append_nil]
    | null => simp [fixData] at h
    | bool b => simp [fixData] at h
    | int n => simp [fixData] at h
    | str s => simp [fixData] at h
    | list xs => simp [fixData] at h

/-! ### Claims C2 – C6 about the reconciler -/

/-- Claim C2: every field present in the schema's default-serialization but
absent from the raw document, or present with a value that fails coercion
to the declared (non-nested) type, is given a replacement value in the
reconciled output and has its dotted node path recorded in the repair log —
`_fix_data` never repairs such a field without recording it. -/
theorem C2_repair_always_recorded
    {fields : List (String × Ty)} {dfs : List (String × Value)}
    {m : List (String × Value)} {fathers : List String}
    {doc : List (String × Value)} {log : List String}
    {k : String} {t : Ty} {d : Value}
    (hnd : (fields.map Prod.fst).Nodup)
    (h : fixData fields dfs (Value.map m) fathers = .ok (doc, log))
    (hmem : (k, t) ∈ fields)
    (hdef : lookupStr dfs k = some d) :
    (lookupStr m k = none →
      lookupStr doc k = some d ∧ dotJoin (fathers ++ [k]) ∈ log) ∧
    (∀ v, lookupStr m k = some v → t.isNestedSchema = false →
      deserializeV v t = .error () →
      (∃ w, lookupStr doc k = some w) ∧ dotJoin (fathers ++ [k]) ∈ log) := by
  constructor
  · intro habs
    exact fixData_field_absent hnd h hmem habs hdef
  · intro v hv hnn hde
    obtain ⟨h1, h2⟩ := fixData_field_fail hnd h hmem hnn hv hde
    rw [hdef] at h1
    exact ⟨⟨_, h1⟩, h2⟩

/-- Witness for C2 at the schema `{a : int (default 5)}` and the empty raw
document. -/
theorem C2_repair_always_recorded_witness :
    lookupStr [("a", Value.int 5)] "a" = some (Value.int 5) ∧
    dotJoin ([] ++ ["a"]) ∈ ["a"] := by
  have happ := @C2_repair_always_recorded [("a", Ty.int)]
    [("a", Value.int 5)] [] [] [("a", Value.int 5)] ["a"] "a" Ty.int
    (Value.int 5)
    (by simp)
    (by simp [fixData, fixField, lookupStr, dotJoin]; rfl)
    (by simp)
    (by simp [lookupStr])
  exact happ.1 (by simp [lookupStr])

/-- Claim C3 as stated is false on the code: for the raw document
`{"a": "7"}` against the schema `{a : int (default 5)}`, the claim's
"coerce the *default*" rule would repair `a` to the default `5`, but
`_fix_data` passes the *raw* value to `int(...)`, so the reconciled value
is `7`. -/
theorem C3_counterexample :
    fixData [("a", Ty.int)] [("a", Value.int 5)]
        (Value.map [("a", Value.str "7")]) []
      = .ok ([("a", Value.int 7)], ["a"]) ∧
    ¬ fixData [("a", Ty.int)] [("a", Value.int 5)]
        (Value.map [("a", Value.str "7")]) []
      = .ok ([("a", Value.int 5)], ["a"]) := by
  have heval : fixData [("a", Ty.int)] [("a", Value.int 5)]
      (Value.map [("a", Value.str "7")]) []
      = .ok ([("a", Value.int 7)], ["a"]) := by
    simp [fixData, fixField, fixPrimField, fixPrim, deserializeV, conforms,
      construct, lookupStr, dotJoin]
    rfl
  refine ⟨heval, ?_⟩
  rw [heval]
  intro hcon
  simp at hcon

/-- Claim C3 (amended): on coercion failure of a present value with a
declared default, the node path is recorded and the emitted value is the
constructor coercion `target_type(raw value)` when that succeeds, else the
literal default. -/
theorem C3_amended
    {fields : List (String × Ty)} {dfs : List (String × Value)}
    {m : List (String × Value)} {fathers : List String}
    {doc : List (String × Value)} {log : List String}
    {k : String} {t : Ty} {v d : Value}
    (hnd : (fields.map Prod.fst).Nodup)
    (h : fixData fields dfs (Value.map m) fathers = .ok (doc, log))
    (hmem : (k, t) ∈ fields)
    (hnn : t.isNestedSchema = false)
    (hv : lookupStr m k = some v)
    (hde : deserializeV v t = .error ())
    (hdef : lookupStr dfs k = some d) :
    lookupStr doc k = some (match construct t v with
      | .ok w => w
      | .error _ => d) ∧
    dotJoin (fathers ++ [k]) ∈ log := by
  obtain ⟨h1, h2⟩ := fixData_field_fail hnd h hmem hnn hv hde
  rw [hdef] at h1
  exact ⟨h1, h2⟩

/-- Witness for the amended C3 at the raw document `{"a": "7"}` against
`{a : int (default 5)}`: the emitted value is `int("7") = 7`. -/
theorem C3_amended_witness :
    lookupStr [("a", Value.int 7)] "a" = some (Value.int 7) ∧
    dotJoin ([] ++ ["a"]) ∈ ["a"] := by
  have happ := @C3_amended [("a", Ty.int)] [("a", Value.int 5)]
    [("a", Value.str "7")] [] [("a", Value.int 7)] ["a"] "a" Ty.int
    (Value.str "7") (Value.int 5)
    (by simp)
    (by simp [fixData, fixField, fixPrimField, fixPrim, deserializeV,
      conforms, construct, lookupStr, dotJoin]; rfl)
    (by simp)
    (by simp [Ty.isNestedSchema])
    (by simp [lookupStr])
    (by simp [deserializeV, conforms])
    (by simp [lookupStr])
  exact ⟨happ.1, happ.2⟩

/-- Claim C4: a present field value that cannot be coerced to the declared
(non-nested) type, for a field with no declared default, is absent from
the reconciled output mapping. -/
theorem C4_uncoercible_without_default_dropped
    {fields : List (String × Ty)} {dfs : List (String × Value)}
    {m : List (String × Value)} {fathers : List String}
    {doc : List (String × Value)} {log : List String}
    {k : String} {t : Ty} {v : Value}
    (hnd : (fields.map Prod.fst).Nodup)
    (h : fixData fields dfs (Value.map m) fathers = .ok (doc, log))
    (hmem : (k, t) ∈ fields)
    (hnn : t.isNestedSchema = false)
    (hv : lookupStr m k = some v)
    (hde : deserializeV v t = .error ())
    (hnodef : lookupStr dfs k = none) :
    lookupStr doc k = none := by
  obtain ⟨h1, -⟩ := fixData_field_fail hnd h hmem hnn hv hde
  rw [hnodef] at h1
  exact h1

/-- Witness for C4 at the raw document `{"a": "x"}` against `{a : int}`
with no default. -/
theorem C4_uncoercible_without_default_dropped_witness :
    lookupStr ([] : List (String × Value)) "a" = none := by
  have happ := @C4_uncoercible_without_default_dropped [("a", Ty.int)] []
    [("a", Value.str "x")] [] [] ["a"] "a" Ty.int (Value.str "x")
    (by simp)
    (by simp [fixData, fixField, fixPrimField, fixPrim, deserializeV,
      conforms, construct, lookupStr, dotJoin]; rfl)
    (by simp)
    (by simp [Ty.isNestedSchema])
    (by simp [lookupStr])
    (by simp [deserializeV, conforms])
    (by simp [lookupStr])
  exact happ

/-- Claim C5 as stated is false on the code: a schema may declare a default
that does not conform to the field's annotation (`a : int = "x"` is
accepted by Python), and then the repaired document is repaired again on
every re-reconciliation — the second repair log is not empty. -/
theorem C5_counterexample :
    fixData [("a", Ty.int)] [("a", Value.str "x")] (Value.map []) []
      = .ok ([("a", Value.str "x")], ["a"]) ∧
    fixData [("a", Ty.int)] [("a", Value.str "x")]
        (Value.map [("a", Value.str "x")]) []
      = .ok ([("a", Value.str "x")], ["a"]) ∧
    (["a"] : List String) ≠ [] := by
  refine ⟨?_, ?_, by simp⟩ <;>
    (simp [fixData, fixField, fixPrimField, fixPrim, deserializeV, conforms,
      construct, lookupStr, dotJoin, pyParseInt, pyParseDigits]; rfl)

/-- Claim C5 (amended): for a schema whose field names are distinct and
whose declared defaults are stable for their annotations, reconciliation
is idempotent — re-running `_fix_data` on a reconciled document succeeds
with an empty repair log. -/
theorem C5_amended
    {fields : List (String × Ty)} {dfs : List (String × Value)}
    {data : Value} {fathers : List String} {doc : List (String × Value)}
    {log : List String}
    (hnd : (fields.map Prod.fst).Nodup)
    (hwf : wfSchemaAux fields dfs = true)
    (h : fixData fields dfs data fathers = .ok (doc, log)) :
    ∃ doc₂, fixData fields dfs (Value.map doc) [] = .ok (doc₂, []) :=
  fixData_idem hnd hwf h []

/-- Witness for the amended C5 at the spec's scenario A: raw `{"a": 1}`
against `{a : int, b : str (default "x")}`. -/
theorem C5_amended_witness :
    (fixData [("a", Ty.int), ("b", Ty.str)] [("b", Value.str "x")]
        (Value.map [("a", Value.int 1), ("b", Value.str "x")]) []).map
      Prod.snd = .ok [] := by
  obtain ⟨doc₂, hd⟩ := @C5_amended [("a", Ty.int), ("b", Ty.str)]
    [("b", Value.str "x")] (Value.map [("a", Value.int 1)]) []
    [("a", Value.int 1), ("b", Value.str "x")] ["b"]
    (by simp)
    (by simp [wfSchemaAux, wfFieldTy, stableDefault, conforms, lookupStr])
    (by simp [fixData, fixField, fixPrimField, fixPrim, deserializeV,
      conforms, construct, lookupStr, dotJoin]; rfl)
  rw [hd]
  rfl

/-- Claim C6: repairs inside a nested schema are recorded with the full
dotted path: raw `{"sub": {"x": "bad"}}` against a schema where `sub` is a
nested schema containing `x : int (default 0)` records `"sub.x"`, not just
`"sub"`. -/
theorem C6_nested_repair_full_path :
    fixData [("sub", Ty.nested [("x", Ty.int)] [("x", Value.int 0)])]
        [("sub", Value.map [("x", Value.int 0)])]
        (Value.map [("sub", Value.map [("x", Value.str "bad")])]) []
      = .ok ([("sub", Value.map [("x", Value.int 0)])], ["sub.x"]) ∧
    ("sub.x" : String) ≠ "sub" := by
  constructor
  · simp [fixData, fixField, fixPrimField, fixPrim, deserializeV, conforms,
      construct, lookupStr, dotJoin]
    rfl
  · decide

/-! ### File system lemmas -/

theorem fsGet_fsDel (fs : FS) (p q : String) :
    fsGet (fsDel fs p) q = if p = q then none else fsGet fs q := by
  induction fs with
  | nil => simp [fsDel, fsGet]
  | cons e rest ih =>
    obtain ⟨k, c⟩ := e
    by_cases hk : k = p
    · subst hk
      by_cases hq : k = q
      · subst hq
        simp [fsDel, fsGet, ih]
      · simp [fsDel, fsGet, hq, ih]
    · by_cases hq : k = q
      · subst hq
        simp [fsDel, fsGet, hk, ih]
        intro hpk
        exact absurd hpk.symm hk
      · simp [fsDel, fsGet, hk, hq, ih]

theorem fsGet_append (l₁ l₂ : FS) (q : String) :
    fsGet (l₁ ++ l₂) q =
      match fsGet l₁ q with
      | some c => some c
      | none => fsGet l₂ q := by
  induction l₁ with
  | nil => simp [fsGet]
  | cons e rest ih =>
    obtain ⟨k, c⟩ := e
    by_cases hk : k = q <;> simp [fsGet, hk, ih]

theorem fsGet_fsSet (fs : FS) (p : String) (c : String) (q : String) :
    fsGet (fsSet fs p c) q = if p = q then some c else fsGet fs q := by
  rw [fsSet, fsGet_append, fsGet_fsDel]
  by_cases hpq : p = q
  · subst hpq
    simp [fsGet]
  · simp [hpq, fsGet]
    rcases fsGet fs q <;> simp [hpq]

theorem applyOps_append (fs : FS) (l₁ l₂ : List FsOp) :
    applyOps fs (l₁ ++ l₂) = applyOps (applyOps fs l₁) l₂ := by
  induction l₁ generalizing fs with
  | nil => simp [applyOps]
  | cons op rest ih => simp [applyOps, ih]

/-- After `safe_write target content`, the target holds exactly the written
content. -/
theorem fsGet_safeWrite (fs : FS) (p c : String) :
    fsGet (applyOps fs (safeWriteOps p c)) p = some c := by
  simp [safeWriteOps, applyOps, applyOp, fsGet_fsSet]

/-- A `.tmp`-suffixed path never coincides with its base path. -/
theorem tmp_ne (s : String) : ¬ s ++ ".tmp" = s := by
  intro h
  have hlen := congrArg String.length h
  rw [String.length_append] at hlen
  have h4 : ".tmp".length = 4 := rfl
  omega

/-- The outcome of one `save` call under the actual validation result: the
merged dump is staged through `safe_write` at the temp path and either
renamed onto the real path (validation success, no warnings, no safe dump)
or followed by two warnings and the safe-dump fallback. -/
theorem saveMain_shape (ctx : SaveCtx) (fs : FS)
    (hne : ctx.tempPath ≠ ctx.realPath) :
    saveMain ctx fs =
      if ctx.validate (ctx.dumpMerged (fsGet fs ctx.realPath)) then
        ⟨.delete ctx.tempPath ::
            (safeWriteOps ctx.tempPath
              (ctx.dumpMerged (fsGet fs ctx.realPath)) ++
            [.rename ctx.tempPath ctx.realPath]), [], 0⟩
      else
        ⟨.delete ctx.tempPath ::
            (safeWriteOps ctx.tempPath
              (ctx.dumpMerged (fsGet fs ctx.realPath)) ++
            (.delete ctx.tempPath ::
              safeWriteOps ctx.realPath ctx.safeContent)),
          [.validationRetry, .contactMaintainer, .savedWithoutFormat], 1⟩ := by
  have hbase : fsGet (applyOps fs [FsOp.delete ctx.tempPath]) ctx.realPath
      = fsGet fs ctx.realPath := by
    simp [applyOps, applyOp, fsGet_fsDel, hne]
  simp only [saveMain, saveSafePart, hbase, fsGet_safeWrite, Option.getD_some]
  by_cases hval : ctx.validate (ctx.dumpMerged (fsGet fs ctx.realPath)) <;>
    simp [hval]

/-! ### Claims C1, C7 and C8 about the load/save orchestration -/

/-- Claim C1 names the spec's guarantee, but the code violates it:
`load()` does recover (delete the file, use the default-serialization,
mark needs-save) when reading or YAML parsing fails, yet a file whose text
*parses* to a non-mapping document — e.g. an empty file, which the YAML
loader turns into `None` — reaches `_fix_data` outside any exception
guard, where `data.keys()` raises `AttributeError` and the exception
escapes `load()`. -/
theorem C1_load_crashes_on_non_mapping_yaml :
    loadModel [("a", Ty.int)] [("a", Value.int 0)] (.ok Value.null)
      = .error () ∧
    loadModel [("a", Ty.int)] [("a", Value.int 0)] (.error ())
      = .ok (LoadResult.mk (Value.map [("a", Value.int 0)]) true true 1) := by
  constructor <;> simp [loadModel, fixData, clsDeserialize, conforms,
    lookupStr]

/-- A save environment whose validation round-trip always fails, over the
default path layout. -/
def ctxFail : SaveCtx :=
  SaveCtx.mk "config.yml" "temp_config.yml" (fun _ => "merged") "safe"
    (fun _ => false)

/-- A save environment whose validation round-trip succeeds, over the
default path layout. -/
def ctxOk : SaveCtx :=
  SaveCtx.mk "config.yml" "temp_config.yml" (fun _ => "merged") "safe"
    (fun _ => true)

/-- Claim C7 as stated is false on the code in one respect: on the
validation-failure path *three* warnings are logged — the two logged
before invoking the fallback plus the one logged by the safe-dump branch
itself — not two. -/
theorem C7_counterexample :
    (saveMain ctxFail []).warns.length = 3 ∧
    ¬ (saveMain ctxFail []).warns.length = 2 := by
  rw [saveMain_shape ctxFail [] (by decide)]
  constructor <;> simp [ctxFail]

/-- Claim C7 (amended): when validation of the freshly written temp file
fails, the safe-dump fallback runs exactly once and does not recurse
further, the instance's plain safe dump reaches the real path through the
atomic `safe_write` helper, and three warnings are logged (two before the
fallback explaining the validation failure and the likely schema bug, one
after the safe dump noting the formatting loss). -/
theorem C7_safe_dump_fallback_once (ctx : SaveCtx) (fs : FS)
    (hne : ctx.tempPath ≠ ctx.realPath)
    (hv : ctx.validate (ctx.dumpMerged (fsGet fs ctx.realPath)) = false) :
    (saveMain ctx fs).safeDumpRuns = 1 ∧
    (saveMain ctx fs).warns
      = [.validationRetry, .contactMaintainer, .savedWithoutFormat] ∧
    (∃ ops₁, (saveMain ctx fs).ops
      = ops₁ ++ safeWriteOps ctx.realPath ctx.safeContent) ∧
    fsGet (applyOps fs (saveMain ctx fs).ops) ctx.realPath
      = some ctx.safeContent := by
  rw [saveMain_shape ctx fs hne, hv]
  simp only [Bool.false_eq_true, if_false]
  refine ⟨by trivial, by trivial, ?_, ?_⟩
  · refine ⟨.delete ctx.tempPath ::
      (safeWriteOps ctx.tempPath (ctx.dumpMerged (fsGet fs ctx.realPath)) ++
        [.delete ctx.tempPath]), ?_⟩
    simp
  · rw [show (FsOp.delete ctx.tempPath ::
        (safeWriteOps ctx.tempPath (ctx.dumpMerged (fsGet fs ctx.realPath)) ++
          (FsOp.delete ctx.tempPath ::
            safeWriteOps ctx.realPath ctx.safeContent)))
        = (FsOp.delete ctx.tempPath ::
            (safeWriteOps ctx.tempPath
              (ctx.dumpMerged (fsGet fs ctx.realPath)) ++
              [FsOp.delete ctx.tempPath])) ++
          safeWriteOps ctx.realPath ctx.safeContent from by simp,
      applyOps_append, fsGet_safeWrite]

/-- Witness for the amended C7 in the always-failing validation
environment. -/
theorem C7_safe_dump_fallback_once_witness :
    (saveMain ctxFail []).safeDumpRuns = 1 ∧
    fsGet (applyOps [] (saveMain ctxFail []).ops) "config.yml"
      = some "safe" := by
  have happ := C7_safe_dump_fallback_once ctxFail [] (by decide) rfl
  exact ⟨happ.1, happ.2.2.2⟩

/-- Claim C8: configuration text is only ever written to `.tmp`/temp paths
and reaches the real path exclusively via a rename, so after any prefix of
`save`'s operations the real path holds its previous content, the complete
merged dump, or the complete safe dump — never a partial write. -/
theorem C8_real_path_written_only_by_rename (ctx : SaveCtx) (fs : FS)
    (h1 : ctx.tempPath ≠ ctx.realPath)
    (h2 : ctx.tempPath ++ ".tmp" ≠ ctx.realPath) :
    (∀ c, FsOp.write ctx.realPath c ∉ (saveMain ctx fs).ops) ∧
    (∀ n, fsGet (applyOps fs ((saveMain ctx fs).ops.take n)) ctx.realPath
        = fsGet fs ctx.realPath ∨
      fsGet (applyOps fs ((saveMain ctx fs).ops.take n)) ctx.realPath
        = some (ctx.dumpMerged (fsGet fs ctx.realPath)) ∨
      fsGet (applyOps fs ((saveMain ctx fs).ops.take n)) ctx.realPath
        = some ctx.safeContent) := by
  have h3 : ctx.realPath ++ ".tmp" ≠ ctx.realPath := tmp_ne _
  rw [saveMain_shape ctx fs h1]
  cases hval : ctx.validate (ctx.dumpMerged (fsGet fs ctx.realPath)) <;>
    simp only [hval, Bool.false_eq_true, if_false, if_true] <;>
    constructor
  · intro c
    simp [safeWriteOps, Ne.symm h2, Ne.symm h3]
  · intro n
    simp only [safeWriteOps, List.cons_append, List.nil_append]
    match n with
    | 0 => left; rfl
    | 1 => left; simp [applyOps, applyOp, fsGet_fsDel, h1]
    | 2 => left; simp [applyOps, applyOp, fsGet_fsDel, h1, h2]
    | 3 => left; simp [applyOps, applyOp, fsGet_fsDel, fsGet_fsSet, h1, h2]
    | 4 => left; simp [applyOps, applyOp, fsGet_fsDel, fsGet_fsSet, h1, h2]
    | 5 =>
      left
      simp [applyOps, applyOp, fsGet_fsDel, fsGet_fsSet, h1, h2]
    | 6 =>
      left
      simp [applyOps, applyOp, fsGet_fsDel, fsGet_fsSet, h1, h2, h3]
    | 7 =>
      left
      simp [applyOps, applyOp, fsGet_fsDel, fsGet_fsSet, h1, h2, h3]
    | n + 8 =>
      right; right
      rw [List.take_of_length_le (by simp)]
      simp [applyOps, applyOp, fsGet_fsDel, fsGet_fsSet, h1, h2, h3]
  · intro c
    simp [safeWriteOps, Ne.symm h2]
  · intro n
    simp only [safeWriteOps, List.cons_append, List.nil_append]
    match n with
    | 0 => left; rfl
    | 1 => left; simp [applyOps, applyOp, fsGet_fsDel, h1]
    | 2 => left; simp [applyOps, applyOp, fsGet_fsDel, h1, h2]
    | 3 => left; simp [applyOps, applyOp, fsGet_fsDel, fsGet_fsSet, h1, h2]
    | 4 => left; simp [applyOps, applyOp, fsGet_fsDel, fsGet_fsSet, h1, h2]
    | n + 5 =>
      right; left
      rw [List.take_of_length_le (by simp)]
      simp [applyOps, applyOp, fsGet_fsDel, fsGet_fsSet, h1, h2]

/-- Witness for C8 in the always-validating environment, after five
operations. -/
theorem C8_real_path_written_only_by_rename_witness :
    fsGet (applyOps [] ((saveMain ctxOk []).ops.take 5)) "config.yml"
        = fsGet ([] : FS) "config.yml" ∨
      fsGet (applyOps [] ((saveMain ctxOk []).ops.take 5)) "config.yml"
        = some (ctxOk.dumpMerged (fsGet [] ctxOk.realPath)) ∨
      fsGet (applyOps [] ((saveMain ctxOk []).ops.take 5)) "config.yml"
        = some ctxOk.safeContent :=
  (C8_real_path_written_only_by_rename ctxOk [] (by decide) (by decide)).2 5

/-! ### Claims C9 and C10 about the translation helpers -/

/-- Claim C9: when the host lookup misses for both the requested language
and the `en_us` fallback and failure is allowed, `ntr` returns the
translation key itself (or the caller-supplied fallback when given),
logging the error exactly when logging is enabled, and does not raise. -/
theorem C9_ntr_echoes_key_on_double_miss (host : TrHost) (key : String)
    (language : Option String) (defaultFb : Option String) (logErr : Bool)
    (hmiss : host.tr key language = .error ())
    (hmissEn : host.tr key (some "en_us") = .error ()) :
    ntrModel host key language true defaultFb logErr
      = (.ok (defaultFb.getD key), logErr) := by
  simp only [ntrModel, hmiss]
  by_cases hlang : host.mcdrLanguage = "en_us" <;> simp [hlang, hmissEn]

/-- Witness for C9 with a host that knows no translations at all. -/
theorem C9_ntr_echoes_key_on_double_miss_witness :
    ntrModel (TrHost.mk (fun _ _ => .error ()) "zh_cn") "my_plugin.k" none
        true none true
      = (.ok "my_plugin.k", true) :=
  C9_ntr_echoes_key_on_double_miss (TrHost.mk (fun _ _ => .error ()) "zh_cn")
    "my_plugin.k" none none true rfl rfl

/-- Python `str.startswith(p)` holds for any string extended from `p`. -/
theorem isPrefixOf_append (p k : List Char) :
    p.isPrefixOf (p ++ k) = true := by
  induction p with
  | nil => simp [List.isPrefixOf]
  | cons a as ih => simp [List.isPrefixOf, ih]

/-- Claim C10: the actual-key computations of `rtr` and `ktr` prepend the
translation-key head only when the key does not already start with it, so
they are idempotent, and an already-prefixed key passes through
unchanged. -/
theorem C10_key_head_prepend_idempotent (pre key : List Char)
    (withPre : Bool) :
    ktrActualKey pre (ktrActualKey pre key) = ktrActualKey pre key ∧
    rtrActualKey pre withPre (rtrActualKey pre withPre key)
      = rtrActualKey pre withPre key ∧
    (pre.isPrefixOf key = true →
      ktrActualKey pre key = key ∧ rtrActualKey pre withPre key = key) := by
  refine ⟨?_, ?_, ?_⟩
  · by_cases hp : pre.isPrefixOf key = true
    · simp [ktrActualKey, hp]
    · simp [ktrActualKey, hp, isPrefixOf_append]
  · cases withPre
    · simp [rtrActualKey]
    · by_cases hp : pre.isPrefixOf key = true
      · simp [rtrActualKey, hp]
      · simp [rtrActualKey, hp, isPrefixOf_append]
  · intro hp
    cases withPre <;> simp [ktrActualKey, rtrActualKey, hp]

/-- Witness for C10 at the already-prefixed key `p.k` with head `p.`. -/
theorem C10_key_head_prepend_idempotent_witness :
    ktrActualKey ['p', '.'] ['p', '.', 'k'] = ['p', '.', 'k'] ∧
    rtrActualKey ['p', '.'] true ['p', '.', 'k'] = ['p', '.', 'k'] :=
  (C10_key_head_prepend_idempotent ['p', '.'] ['p', '.', 'k'] true).2.2
    (by decide)

end MyPlugin
